import Mathlib

/-
Verification of the provider-orchestration engine of the market-data
repository: the fallback chain executor (providers/provider_chain.py),
the provider factory (providers/provider_factory.py), the shared rate
limiter (utils/rate_limiter.py) and the response curators
(finance_data_server/utils/data_optimizers.py,
providers/robinhood_options.py).

Python values are embedded shallowly: dicts become ordered association
lists with Python's in-place-update assignment semantics, numbers become
rationals, exceptions become `Except String`.
-/

namespace MarketData

/-- Python values that flow through the provider chain: dictionaries
(ordered key/value lists), strings, booleans, lists and integers. -/
inductive PyVal where
  | vDict : List (String × PyVal) → PyVal
  | vStr : String → PyVal
  | vBool : Bool → PyVal
  | vList : List PyVal → PyVal
  | vInt : Int → PyVal

/-- Python dict assignment `d[k] = v`: replaces the value of an existing
key in place, otherwise appends the new key at the end (dicts preserve
insertion order). -/
def upsert {α : Type} : List (String × α) → String → α → List (String × α)
  | [], k, v => [(k, v)]
  | (k₁, v₁) :: rest, k, v =>
      if k₁ = k then (k₁, v) :: rest else (k₁, v₁) :: upsert rest k v

/-- Python dict lookup `d[k]` (first matching key). -/
def dictGet {α : Type} (d : List (String × α)) (k : String) : Option α :=
  (d.find? (fun e => e.1 = k)).map (fun e => e.2)

/-- A provider as seen by the chain executor (base_provider.py contract):
its name, its declared capability tags (the `.value` strings of
`ProviderCapability`), whether it exposes a given method name
(`hasattr`), the outcome of its async health check (a raised exception
becomes `.error`), and the outcome of invoking a method (normal return
or a raised exception message). -/
structure Provider where
  name : String
  capabilities : List String
  hasMethod : String → Bool
  health : Except String Bool
  op : String → Except String PyVal

/-- `BaseProvider.supports_capability`: membership of the capability in
the provider's capability list. -/
def Provider.supportsCapability (p : Provider) (c : String) : Bool :=
  p.capabilities.contains c

/-- Result of a chain execution, instrumented with the per-call error
map (`self.errors`) and ghost logs of which providers had their health
check run and which had the requested operation invoked. -/
structure ExecOut where
  result : PyVal
  errors : List (String × String)
  healthChecked : List String
  opsInvoked : List String

namespace ProviderChain

/-- The aggregate failure value built at the end of
`ProviderChain.execute` when every provider failed. -/
def aggFail (method : String) (errs : List (String × String)) (total : Nat) : PyVal :=
  .vDict [(("error"), .vStr ("All providers in chain failed")),
          (("method"), .vStr method),
          (("provider_errors"), .vDict (errs.map (fun e => (e.1, .vStr e.2)))),
          (("total_providers"), .vInt total)]

/-- The metadata mutation applied to a successful result when it is a
dict: `result["provider"] = name`, `result["fallback_used"] = i > 0`,
and when `i > 0` also `result["failed_providers"] = list(errors.keys())`.
Non-dict results are returned untouched. -/
def annotate (v : PyVal) (nm : String) (i : Nat) (errs : List (String × String)) : PyVal :=
  match v with
  | .vDict d =>
      let d₁ := upsert d ("provider") (.vStr nm)
      let d₂ := upsert d₁ ("fallback_used") (.vBool (decide (0 < i)))
      .vDict (if 0 < i then
                upsert d₂ ("failed_providers") (.vList (errs.map (fun e => .vStr e.1)))
              else d₂)
  | .vStr s => .vStr s
  | .vBool b => .vBool b
  | .vList l => .vList l
  | .vInt n => .vInt n

/-- The loop body of `ProviderChain.execute`: walk the providers in
order with index `i` and the error map accumulated so far.  A provider
that lacks the method, fails its health check (returning false or
raising), or raises from the operation, is recorded in the error map and
the walk continues; the first normal return is annotated and returned;
when the list is exhausted the aggregate failure is returned.  The two
ghost logs record health-check and operation invocations. -/
def execAux (method : String) (total : Nat) :
    List Provider → Nat → List (String × String) → ExecOut
  | [], _, errs => ⟨aggFail method errs total, errs, [], []⟩
  | p :: rest, i, errs =>
    if p.hasMethod method then
      match p.health with
      | .ok true =>
        match p.op method with
        | .ok v => ⟨annotate v p.name i errs, errs, [p.name], [p.name]⟩
        | .error e =>
            let r := execAux method total rest (i + 1) (upsert errs p.name e)
            ⟨r.result, r.errors, p.name :: r.healthChecked, p.name :: r.opsInvoked⟩
      | .ok false =>
          let r := execAux method total rest (i + 1)
                     (upsert errs p.name ("Provider health check failed"))
          ⟨r.result, r.errors, p.name :: r.healthChecked, r.opsInvoked⟩
      | .error e =>
          let r := execAux method total rest (i + 1) (upsert errs p.name e)
          ⟨r.result, r.errors, p.name :: r.healthChecked, r.opsInvoked⟩
    else
      let r := execAux method total rest (i + 1)
                 (upsert errs p.name (("Method ") ++ method ++ (" not supported")))
      ⟨r.result, r.errors, r.healthChecked, r.opsInvoked⟩

/-- `ProviderChain.execute(method_name, ...)`: clear the error map and
walk the chain from index 0. -/
def execute (method : String) (ps : List Provider) : ExecOut :=
  execAux method ps.length ps 0 []

/-- `ProviderChain.execute_with_capability_filter`: keep only providers
whose capability set contains the required capability (preserving
order); if none remain, return the error dict without touching any
provider; otherwise run `execute` on a transient chain of the capable
providers. -/
def executeWithCapabilityFilter (method : String) (cap : String)
    (ps : List Provider) : ExecOut :=
  let capable := ps.filter (fun p => p.supportsCapability cap)
  if capable.isEmpty then
    { result := .vDict [(("error"), .vStr (("No providers support capability: ") ++ cap)),
                        (("method"), .vStr method),
                        (("available_providers"), .vList (ps.map (fun p => .vStr p.name)))],
      errors := [], healthChecked := [], opsInvoked := [] }
  else execute method capable

/-- A provider succeeds for a method: it exposes the method, its health
check returns true, and the method call returns normally. -/
def succeedsFor (method : String) (p : Provider) : Prop :=
  p.hasMethod method = true ∧ p.health = .ok true ∧ ∃ v, p.op method = .ok v

/-- The reason string `execute` records for a provider that does not
succeed (the success branch of the match is never reached for such a
provider). -/
def failReason (method : String) (p : Provider) : String :=
  if p.hasMethod method then
    match p.health with
    | .ok true =>
        match p.op method with
        | .ok _ => ("")
        | .error e => e
    | .ok false => ("Provider health check failed")
    | .error e => e
  else ("Method ") ++ method ++ (" not supported")

/-- The error map accumulated by walking a list of failing providers. -/
def failMap (method : String) : List (String × String) → List Provider → List (String × String)
  | errs, [] => errs
  | errs, p :: rest => failMap method (upsert errs p.name (failReason method p)) rest

/-- Whether the health check of a provider completed and returned true. -/
def healthOkTrue (p : Provider) : Bool :=
  match p.health with
  | .ok true => true
  | .ok false => false
  | .error _ => false

/-- Concrete provider: exposes every method, healthy, but every
operation raises an exception whose message is empty. -/
def provRaisesEmpty : Provider :=
  { name := ("A"), capabilities := [], hasMethod := fun _ => true,
    health := .ok true, op := fun _ => .error ("") }

/-- Concrete provider: exposes every method, healthy, every operation
returns an empty dict. -/
def provDictOk : Provider :=
  { name := ("B"), capabilities := [], hasMethod := fun _ => true,
    health := .ok true, op := fun _ => .ok (.vDict []) }

/-- Concrete provider: exposes every method but its health check
returns false; operations would return an int. -/
def provUnhealthy : Provider :=
  { name := ("U"), capabilities := [], hasMethod := fun _ => true,
    health := .ok false, op := fun _ => .ok (.vInt 0) }

/-- Concrete provider: exposes every method, healthy, every operation
returns the non-dict value 7. -/
def provIntOk : Provider :=
  { name := ("C"), capabilities := [], hasMethod := fun _ => true,
    health := .ok true, op := fun _ => .ok (.vInt 7) }

/-- The attribution part of claim C1 exactly as stated: for every chain
containing a provider that exposes the operation and passes its health
check, with every earlier provider either lacking the operation or
failing its health check, the returned dict is attributed to that first
capable healthy provider. -/
def claimC1Attribution : Prop :=
  ∀ (method : String) (pre : List Provider) (p : Provider) (post : List Provider),
    (∀ q ∈ pre, ¬ (q.hasMethod method = true ∧ q.health = .ok true)) →
    p.hasMethod method = true → p.health = .ok true →
    ∀ d, (execute method (pre ++ p :: post)).result = .vDict d →
      dictGet d ("provider") = some (.vStr p.name)

end ProviderChain

namespace ProviderFactory

/-- A provider class as the factory sees it: whether it is a subclass
of BaseProvider, plus an identity tag distinguishing distinct classes. -/
structure ProviderClass where
  isSubclassOfBaseProvider : Bool
  classId : Nat
deriving DecidableEq

/-- The factory's registration state: `_providers` maps names to classes
(insertion-ordered, Python dict semantics). -/
structure FactoryState where
  providers : List (String × ProviderClass)
deriving DecidableEq

/-- `ProviderFactory.register_provider`: raise ValueError when the class
is not a BaseProvider subclass; otherwise store the class under the
name — silently replacing any previous registration for that name. -/
def registerProvider (st : FactoryState) (nm : String) (cls : ProviderClass) :
    Except String FactoryState :=
  if ¬ cls.isSubclassOfBaseProvider then
    .error ("Provider class must inherit from BaseProvider")
  else
    .ok ⟨upsert st.providers nm cls⟩

/-- Claim C9 as stated: registering a provider under a name that is
already registered (without an explicit replace — the code has no such
parameter) fails with a configuration error. -/
def claimC9DuplicateRejected : Prop :=
  ∀ (st : FactoryState) (nm : String) (cls old : ProviderClass),
    dictGet st.providers nm = some old →
    ∃ e, registerProvider st nm cls = .error e

end ProviderFactory

namespace Optimizer

/-- Every consecutive pair of the list strictly decreases — the Python
generator `all(t[i] > t[i+1] for i in range(len(t) - 1))`. -/
def strictDescB : List ℚ → Bool
  | a :: b :: rest => decide (b < a) && strictDescB (b :: rest)
  | _ => true

/-- Every consecutive pair of the list strictly increases — the Python
generator `all(t[i] < t[i+1] for i in range(len(t) - 1))`. -/
def strictAscB : List ℚ → Bool
  | a :: b :: rest => decide (a < b) && strictAscB (b :: rest)
  | _ => true

/-- Python `sorted(items, reverse=True)` on a date-indexed series.
Dates are encoded as naturals (e.g. 20240103 for "2024-01-03"), whose
numeric order coincides with the lexicographic order of fixed-format
ISO date strings.  Insertion sort is stable, like Python's sort; keys
within one dict are unique, so tie order is irrelevant here. -/
def sortDescByDate (xs : List (Nat × ℚ)) : List (Nat × ℚ) :=
  List.insertionSort (fun a b => b.1 ≤ a.1) xs

/-- The signal branch of `DataOptimizer.optimize_rsi_data`. -/
def rsiSignal (latest : ℚ) : String :=
  if latest ≥ 70 then ("OVERBOUGHT")
  else if latest ≤ 30 then ("OVERSOLD")
  else if latest > 50 then ("BULLISH")
  else ("BEARISH")

/-- The trend branch of `DataOptimizer.optimize_rsi_data`: strict
3-point monotonicity over the most-recent-first values. -/
def rsiTrend (recent : List ℚ) : String :=
  if 3 ≤ recent.length then
    if strictDescB (recent.take 3) then ("RISING")
    else if strictAscB (recent.take 3) then ("FALLING")
    else ("SIDEWAYS")
  else ("INSUFFICIENT_DATA")

/-- The `current_analysis` payload produced by `optimize_rsi_data`. -/
structure RsiAnalysis where
  latestRsi : ℚ
  signal : String
  trendDirection : String
  recentValues : List (Nat × ℚ)
deriving DecidableEq

/-- `DataOptimizer.optimize_rsi_data` on a parsed date-indexed RSI
series (values already parsed to rationals; entries whose parse fails
are dropped before this point): sort most-recent-first, keep the last
5 periods, classify the latest value and the 3-point trend.  `none`
models the early return of the raw payload for an empty series. -/
def optimizeRsiData (series : List (Nat × ℚ)) : Option RsiAnalysis :=
  match (sortDescByDate series).take 5 with
  | [] => none
  | latest :: rest =>
      some { latestRsi := latest.2,
             signal := rsiSignal latest.2,
             trendDirection := rsiTrend ((latest :: rest).map (fun v => v.2)),
             recentValues := latest :: rest }

/-- Python `round(x, n)`.  Python rounds half to even while Mathlib's
`round` rounds half up; the two differ only at exact midpoint ties,
which no claim exercises. -/
def roundTo (n : Nat) (x : ℚ) : ℚ := ((round (x * 10 ^ n) : ℤ) : ℚ) / 10 ^ n

/-- One option contract as read by `optimize_options_data` (absent
numeric fields default to 0 via `.get(key, 0)`; the pass-through
fields stay optional). -/
structure OptContract where
  strike : ℚ
  volume : ℚ
  openInterest : ℚ
  bid : Option ℚ
  ask : Option ℚ
  lastPrice : Option ℚ
  impliedVolatility : Option ℚ
  delta : Option ℚ
deriving DecidableEq

/-- The projected contract dict built for each kept contract. -/
structure OptProjected where
  strike : ℚ
  volume : ℚ
  openInterest : ℚ
  bid : Option ℚ
  ask : Option ℚ
  lastPrice : Option ℚ
  impliedVolatility : Option ℚ
  delta : Option ℚ
  moneyness : ℚ
deriving DecidableEq

/-- `abs(strike - current_price) / current_price * 100`. -/
def optMoneyness (price strike : ℚ) : ℚ := |strike - price| / price * 100

/-- The professional filter of `optimize_options_data`:
`(volume > 10 or openInterest > 100) and moneyness <= 15`. -/
def keepContract (price : ℚ) (c : OptContract) : Bool :=
  (decide (10 < c.volume) || decide (100 < c.openInterest))
    && decide (optMoneyness price c.strike ≤ 15)

def projectContract (price : ℚ) (c : OptContract) : OptProjected :=
  { strike := c.strike, volume := c.volume, openInterest := c.openInterest,
    bid := c.bid, ask := c.ask, lastPrice := c.lastPrice,
    impliedVolatility := c.impliedVolatility, delta := c.delta,
    moneyness := roundTo 2 (optMoneyness price c.strike) }

/-- One entry of the raw `data` list: an expiration date (possibly
missing or empty — both are skipped by the loop) with its CALL and PUT
lists. -/
structure ExpirationContracts where
  expirationDate : Option String
  calls : List OptContract
  puts : List OptContract
deriving DecidableEq

/-- The raw payload handed to `optimize_options_data`: whether a
"data" key is present, its contracts, `lastTradePrice` (0 models a
missing or falsy price) and the provider tag. -/
structure RawOptionsData where
  hasData : Bool
  data : List ExpirationContracts
  lastTradePrice : ℚ
  provider : Option String
deriving DecidableEq

/-- One curated expiration: capped call and put lists plus the
surviving volume. -/
structure ExpEntry where
  calls : List OptProjected
  puts : List OptProjected
  totalVolume : ℚ
deriving DecidableEq

/-- The optimization summary (the constant `filter_criteria` strings
are omitted). -/
structure OptSummary where
  originalContracts : Nat
  optimizedContracts : Nat
  reductionPercentage : ℚ
deriving DecidableEq

/-- The result of `optimize_options_data`: either the raw payload
returned unchanged by one of the early guards, or the curated
structure. -/
inductive OptimizeResult where
  | raw : RawOptionsData → OptimizeResult
  | optimized : Option String → List (String × ExpEntry) → OptSummary → OptimizeResult
deriving DecidableEq

/-- Python `sorted(..., key=volume, reverse=True)` (stable). -/
def sortByVolumeDesc (xs : List OptProjected) : List OptProjected :=
  List.insertionSort (fun a b => b.volume ≤ a.volume) xs

/-- Loop body over one raw expiration entry: skip entries with a
missing or empty expiration date, count the originals, filter both
sides, and when the surviving volume exceeds 50 record the expiration
with each side sorted by volume descending and capped at 20 (Python
dict assignment replaces an earlier entry with the same date). -/
def stepContract (price : ℚ) (acc : List (String × ExpEntry) × Nat)
    (c : ExpirationContracts) : List (String × ExpEntry) × Nat :=
  match c.expirationDate with
  | none => acc
  | some d =>
      if d = ("") then acc
      else
        let filteredCalls := (c.calls.filter (keepContract price)).map (projectContract price)
        let filteredPuts := (c.puts.filter (keepContract price)).map (projectContract price)
        let totalVolume := ((filteredCalls ++ filteredPuts).map (fun x => x.volume)).sum
        let origCount := acc.2 + c.calls.length + c.puts.length
        if 50 < totalVolume then
          (upsert acc.1 d
            { calls := (sortByVolumeDesc filteredCalls).take 20,
              puts := (sortByVolumeDesc filteredPuts).take 20,
              totalVolume := totalVolume },
           origCount)
        else (acc.1, origCount)

/-- `DataOptimizer.optimize_options_data`. -/
def optimizeOptionsData (rawData : RawOptionsData) (maxExpirations : Nat) : OptimizeResult :=
  if ¬ rawData.hasData then .raw rawData
  else if rawData.data.isEmpty then .raw rawData
  else if rawData.lastTradePrice = 0 then .raw rawData
  else
    let price := rawData.lastTradePrice
    let res := rawData.data.foldl (stepContract price) ([], 0)
    let sortedExpirations :=
      (List.insertionSort (fun a b => b.2.totalVolume ≤ a.2.totalVolume) res.1).take
        maxExpirations
    let totalOptimized :=
      (sortedExpirations.map (fun e => e.2.calls.length + e.2.puts.length)).sum
    .optimized rawData.provider sortedExpirations
      { originalContracts := res.2,
        optimizedContracts := totalOptimized,
        reductionPercentage :=
          roundTo 1
            (if 0 < res.2 then (1 - (totalOptimized : ℚ) / (res.2 : ℚ)) * 100 else 0) }

/-- The per-side contract counts appearing in an optimization result
(for the passthrough case, the sides of the raw entries). -/
def sideCounts : OptimizeResult → List Nat
  | .raw rd => rd.data.foldr (fun c acc => c.calls.length :: c.puts.length :: acc) []
  | .optimized _ exps _ => exps.foldr (fun e acc => e.2.calls.length :: e.2.puts.length :: acc) []

/-- Claim C7 as stated: for every input, every side of every expiration
of the curated result holds at most 20 contracts (the configured
per-side cap of `optimize_options_data`). -/
def claimC7Cap : Prop :=
  ∀ (rd : RawOptionsData) (maxExpirations : Nat),
    ∀ n ∈ sideCounts (optimizeOptionsData rd maxExpirations), n ≤ 20

/-- A liquid dummy contract used in the C7 inputs. -/
def liquidCall : OptContract :=
  { strike := 120, volume := 100, openInterest := 0, bid := none, ask := none,
    lastPrice := none, impliedVolatility := none, delta := none }

/-- C7 counterexample input: a well-formed "data" list with 21 calls in
one expiration, but lastTradePrice 0, which makes the function return
the raw payload unchanged — uncapped. -/
def c7BadInput : RawOptionsData :=
  { hasData := true,
    data := [{ expirationDate := some ("2024-06-21"),
               calls := List.replicate 21 liquidCall, puts := [] }],
    lastTradePrice := 0, provider := none }

/-- C7 witness input: same single-expiration data with a positive
underlying price, exercising the real curation path. -/
def c7GoodInput : RawOptionsData :=
  { hasData := true,
    data := [{ expirationDate := some ("2024-06-21"),
               calls := [liquidCall], puts := [] }],
    lastTradePrice := 120, provider := none }

end Optimizer

namespace RobinhoodOptions

/-- One option dict as read by `_filter_professional_options`
(volume and open_interest default to 0 via `.get(key, 0)`; bid and ask
via `.get(key)` may be absent). -/
structure RHOption where
  strike : ℚ
  volume : ℚ
  openInterest : ℚ
  bid : Option ℚ
  ask : Option ℚ
deriving DecidableEq

/-- The liquidity bar of `_filter_professional_options`:
`volume > 0 or open_interest > 10 or (bid is not None and ask is not
None and bid > 0)` — the ask's value is never tested. -/
def isLiquid (o : RHOption) : Bool :=
  decide (0 < o.volume) || decide (10 < o.openInterest) ||
    (match o.bid, o.ask with
     | some b, some _ => decide (0 < b)
     | _, _ => false)

/-- Python `options.sort(key=strike)` (stable ascending). -/
def sortByStrike (xs : List RHOption) : List RHOption :=
  List.insertionSort (fun a b => a.strike ≤ b.strike) xs

/-- Python `min(options, key=|strike - current_price|)`: the first
element attaining the minimal key. -/
def argminAbsDist (price : ℚ) : List RHOption → Option RHOption
  | [] => none
  | o :: rest =>
      match argminAbsDist price rest with
      | none => some o
      | some m => if |m.strike - price| < |o.strike - price| then some m else some o

/-- The primary professional filter: strike within ±15% of the
underlying price around the ATM strike, and liquid.  The source
computes the same band expression for calls and for puts, so the
option type does not change the predicate. -/
def primaryFilter (sorted : List RHOption) (price atm : ℚ) (optionType : String) :
    List RHOption :=
  sorted.filter (fun o =>
    (if optionType = ("call") then decide (|o.strike - atm| ≤ price * (15 / 100))
     else decide (|o.strike - atm| ≤ price * (15 / 100))) && isLiquid o)

/-- The re-add loop entered when fewer than 5 contracts survive: walk
the sorted list, stop once 10 are kept, and re-add contracts not
already kept whose strike is within ±25% of the ATM strike. -/
def readdNearMoney (atm price : ℚ) : List RHOption → List RHOption → List RHOption
  | [], acc => acc
  | o :: rest, acc =>
      if 10 ≤ acc.length then acc
      else if o ∈ acc then readdNearMoney atm price rest acc
      else if |o.strike - atm| ≤ price * (25 / 100) then
        readdNearMoney atm price rest (acc ++ [o])
      else readdNearMoney atm price rest acc

/-- Python `sort(key=|strike - atm_strike|)` (stable ascending). -/
def sortByAtmDist (atm : ℚ) (xs : List RHOption) : List RHOption :=
  List.insertionSort (fun a b => |a.strike - atm| ≤ |b.strike - atm|) xs

/-- `RobinhoodOptionsProvider._filter_professional_options`. -/
def filterProfessionalOptions (options : List RHOption) (currentPrice : ℚ)
    (optionType : String) : List RHOption :=
  if options.isEmpty || decide (currentPrice ≤ 0) then options.take 10
  else
    let sorted := sortByStrike options
    match argminAbsDist currentPrice sorted with
    | none => options.take 10
    | some atmOpt =>
        let atm := atmOpt.strike
        let professional := primaryFilter sorted currentPrice atm optionType
        let professional₂ :=
          if professional.length < 5 then readdNearMoney atm currentPrice sorted professional
          else professional
        (sortByAtmDist atm professional₂).take 8

/-- A C4 example option: the given strike, volume 100 (actively
traded), no open interest, no quotes. -/
def exOption (s : ℚ) : RHOption :=
  { strike := s, volume := 100, openInterest := 0, bid := none, ask := none }

/-- The C4 example chain: strikes 100..140 in steps of 10, all liquid. -/
def c4Example : List RHOption :=
  [exOption 100, exOption 110, exOption 120, exOption 130, exOption 140]

/-- The band part of claim C4 as stated: with the example strikes and
underlying price 120, every contract surviving curation has its strike
inside the ±15% band [102, 138] (so 100 and 140 are excluded). -/
def claimC4BandExclusion : Prop :=
  ∀ optionType, ∀ o ∈ filterProfessionalOptions c4Example 120 optionType,
    102 ≤ o.strike ∧ o.strike ≤ 138

end RobinhoodOptions

namespace RateLimiter

/-- `RateLimitConfig`: optional per-minute and per-day caps.  The
`burst_size` field is computed by the source constructor but never read
by the limiter, so it is omitted.  Python truthiness: a cap of `None`
or `0` disables the corresponding window. -/
structure RateLimitConfig where
  requestsPerMinute : Option Nat
  requestsPerDay : Option Nat
deriving DecidableEq

/-- Python truthiness of an optional numeric cap. -/
def truthy (o : Option Nat) : Bool := decide (o.getD 0 ≠ 0)

/-- The two sliding-window deques of `ProviderRateLimiter`, holding
admission timestamps in seconds, in append order. -/
structure LimiterState where
  minuteRequests : List ℚ
  dailyRequests : List ℚ
deriving DecidableEq

/-- `_cleanup_old_requests`: pop entries from the front of each
configured window while they are older than the window interval
(60 s, 86400 s). -/
def cleanupOldRequests (cfg : RateLimitConfig) (st : LimiterState) (now : ℚ) :
    LimiterState :=
  { minuteRequests :=
      if truthy cfg.requestsPerMinute then
        st.minuteRequests.dropWhile (fun ts => decide (ts < now - 60))
      else st.minuteRequests,
    dailyRequests :=
      if truthy cfg.requestsPerDay then
        st.dailyRequests.dropWhile (fun ts => decide (ts < now - 86400))
      else st.dailyRequests }

/-- `_can_make_request` on an already-cleaned state. -/
def canMakeRequest (cfg : RateLimitConfig) (st : LimiterState) : Bool :=
  (if truthy cfg.requestsPerMinute then
     decide (st.minuteRequests.length < cfg.requestsPerMinute.getD 0)
   else true)
  && (if truthy cfg.requestsPerDay then
        decide (st.dailyRequests.length < cfg.requestsPerDay.getD 0)
      else true)

/-- `_get_wait_time` on an already-cleaned state: collect, for each
full window, the wait until its oldest entry ages out, and return
`max(wait_times) if wait_times else 0`. -/
def getWaitTime (cfg : RateLimitConfig) (st : LimiterState) (now : ℚ) : ℚ :=
  let waits :=
    (if truthy cfg.requestsPerMinute
        && decide (cfg.requestsPerMinute.getD 0 ≤ st.minuteRequests.length) then
       [st.minuteRequests.headD 0 + 60 - now]
     else [])
    ++ (if truthy cfg.requestsPerDay
          && decide (cfg.requestsPerDay.getD 0 ≤ st.dailyRequests.length) then
         [st.dailyRequests.headD 0 + 86400 - now]
       else [])
  match waits with
  | [] => 0
  | w :: ws => ws.foldl max w

/-- Append the admission timestamp to each configured window
(`if self.config.requests_per_minute: self.minute_requests.append(now)`;
likewise for the daily window). -/
def appendTimestamps (cfg : RateLimitConfig) (st : LimiterState) (t : ℚ) :
    LimiterState :=
  { minuteRequests :=
      if truthy cfg.requestsPerMinute then st.minuteRequests ++ [t]
      else st.minuteRequests,
    dailyRequests :=
      if truthy cfg.requestsPerDay then st.dailyRequests ++ [t]
      else st.dailyRequests }

/-- Result of one `acquire` call: whether it was granted, the new
window state, and the clock reading at which the timestamp was
appended (`now` when granted immediately or denied, `now + wait` after
sleeping). -/
structure AcquireOut where
  granted : Bool
  state : LimiterState
  effectiveTime : ℚ
deriving DecidableEq

/-- `ProviderRateLimiter.acquire` under the lock, with `datetime.now()`
passed in as `now`.  The post-sleep clock reading is idealized as
exactly `now + wait` (the real clock reads at least that, which only
ages entries further).  Note the Python guard
`if timeout and wait_time > timeout`: a falsy timeout (None or 0)
never denies. -/
def acquire (cfg : RateLimitConfig) (st : LimiterState) (now : ℚ)
    (timeout : Option ℚ) : AcquireOut :=
  let st₁ := cleanupOldRequests cfg st now
  if canMakeRequest cfg st₁ then
    ⟨true, appendTimestamps cfg st₁ now, now⟩
  else
    let w := getWaitTime cfg st₁ now
    if decide (timeout.getD 0 ≠ 0) && decide (timeout.getD 0 < w) then
      ⟨false, st₁, now⟩
    else
      ⟨true, appendTimestamps cfg st₁ (now + w), now + w⟩

/-- Run a list of `acquire` events (call time, timeout) in order. -/
def runAcquires (cfg : RateLimitConfig) :
    LimiterState → List (ℚ × Option ℚ) → LimiterState
  | st, [] => st
  | st, (t, o) :: es => runAcquires cfg (acquire cfg st t o).state es

/-- The chronology condition of the trace theorem: every call observes
a wall-clock reading strictly later than every timestamp already
recorded (the per-limiter lock serializes calls and the wall clock
has advanced past the previous call's append). -/
def chronOK (cfg : RateLimitConfig) : LimiterState → List (ℚ × Option ℚ) → Bool
  | _, [] => true
  | st, (t, o) :: es =>
      st.minuteRequests.all (fun x => decide (x < t))
        && st.dailyRequests.all (fun x => decide (x < t))
        && chronOK cfg (acquire cfg st t o).state es

/-- The number of recorded timestamps lying within the trailing window
`(t - width, t]`. -/
def countInWindow (s : List ℚ) (width t : ℚ) : Nat :=
  (s.filter (fun ts => decide (t - width < ts) && decide (ts ≤ t))).length

/-- Limiter configuration for the C3 failing input: one request per
minute, no daily cap. -/
def c3cfg : RateLimitConfig := ⟨some 1, none⟩

/-- Limiter state for the C3 failing input: a single timestamp at time
0, so the minute window is at capacity. -/
def c3st : LimiterState := ⟨[(0 : ℚ)], []⟩

end RateLimiter

lemma upsert_of_not_mem {α : Type} (d : List (String × α)) (k : String) (v : α)
    (h : k ∉ d.map Prod.fst) : upsert d k v = d ++ [(k, v)] := by
  induction d with
  | nil => rfl
  | cons e rest ih =>
      simp only [List.map_cons, List.mem_cons] at h
      push_neg at h
      simp only [upsert, if_neg (Ne.symm h.1), List.cons_append, List.cons.injEq, true_and]
      exact ih h.2

lemma mem_upsert {α : Type} (d : List (String × α)) (k : String) (v : α) :
    ∀ e ∈ upsert d k v, e ∈ d ∨ e = (k, v) := by
  induction d with
  | nil =>
      intro e he
      simp only [upsert, List.mem_singleton] at he
      exact Or.inr he
  | cons f rest ih =>
      intro e he
      by_cases hk : f.1 = k
      · simp only [upsert, if_pos hk, List.mem_cons] at he
        rcases he with he | he
        · exact Or.inr (by rw [he, hk])
        · exact Or.inl (List.mem_cons_of_mem _ he)
      · simp only [upsert, if_neg hk, List.mem_cons] at he
        rcases he with he | he
        · exact Or.inl (by rw [he]; exact List.mem_cons_self _ _)
        · rcases ih e he with h | h
          · exact Or.inl (List.mem_cons_of_mem _ h)
          · exact Or.inr h

namespace ProviderChain

lemma failMap_eq_append (method : String) (pre : List Provider) :
    ∀ errs : List (String × String),
      (∀ q ∈ pre, q.name ∉ errs.map Prod.fst) →
      (pre.map Provider.name).Nodup →
      failMap method errs pre
        = errs ++ pre.map (fun q => (q.name, failReason method q)) := by
  induction pre with
  | nil => intro errs _ _; simp [failMap]
  | cons q rest ih =>
      intro errs hfresh hnodup
      simp only [List.map_cons, List.nodup_cons] at hnodup
      have hq : q.name ∉ errs.map Prod.fst := hfresh q (by simp)
      simp only [failMap, upsert_of_not_mem errs q.name _ hq]
      rw [ih]
      · simp
      · intro r hr
        simp only [List.map_append, List.mem_append]
        push_neg
        refine ⟨hfresh r (by simp [hr]), ?_⟩
        simp only [List.map_cons, List.map_nil, List.mem_singleton]
        intro hcon
        exact hnodup.1 (hcon ▸ (List.mem_map_of_mem Provider.name hr))
      · exact hnodup.2

/-- One failing provider advances the walk, recording its reason. -/
lemma execAux_cons_fail (method : String) (total : Nat) (p : Provider)
    (rest : List Provider) (i : Nat) (errs : List (String × String))
    (hfail : ¬ succeedsFor method p) :
    (execAux method total (p :: rest) i errs).result
        = (execAux method total rest (i + 1) (upsert errs p.name (failReason method p))).result
      ∧ (execAux method total (p :: rest) i errs).errors
        = (execAux method total rest (i + 1) (upsert errs p.name (failReason method p))).errors
      ∧ (execAux method total (p :: rest) i errs).healthChecked
        = (if p.hasMethod method then [p.name] else [])
            ++ (execAux method total rest (i + 1) (upsert errs p.name (failReason method p))).healthChecked
      ∧ (execAux method total (p :: rest) i errs).opsInvoked
        = (if p.hasMethod method && healthOkTrue p then [p.name] else [])
            ++ (execAux method total rest (i + 1) (upsert errs p.name (failReason method p))).opsInvoked := by
  by_cases hm : p.hasMethod method
  · rcases hh : p.health with e | b
    · simp [execAux, hm, hh, failReason, healthOkTrue]
    · cases b
      · simp [execAux, hm, hh, failReason, healthOkTrue]
      · rcases ho : p.op method with e | v
        · simp [execAux, hm, hh, ho, failReason, healthOkTrue]
        · exact absurd ⟨hm, hh, v, ho⟩ hfail
  · simp only [Bool.not_eq_true] at hm
    simp [execAux, hm, failReason, healthOkTrue]

/-- Characterization of a chain run whose first success sits after a
prefix of failing providers: the walk records every prefix provider's
reason, annotates the success payload with the index and error-map
snapshot, and runs health checks and operations only on the prefix and
the succeeding provider. -/
lemma execAux_first_success (method : String) (total : Nat)
    (pre : List Provider) (p : Provider) (post : List Provider) (v : PyVal)
    (hpre : ∀ q ∈ pre, ¬ succeedsFor method q)
    (hm : p.hasMethod method = true) (hh : p.health = .ok true)
    (ho : p.op method = .ok v) :
    ∀ (i : Nat) (errs : List (String × String)),
      (execAux method total (pre ++ p :: post) i errs).result
          = annotate v p.name (i + pre.length) (failMap method errs pre)
        ∧ (execAux method total (pre ++ p :: post) i errs).errors
          = failMap method errs pre
        ∧ (execAux method total (pre ++ p :: post) i errs).healthChecked
          = (pre.filter (fun q => q.hasMethod method)).map Provider.name ++ [p.name]
        ∧ (execAux method total (pre ++ p :: post) i errs).opsInvoked
          = (pre.filter (fun q => q.hasMethod method && healthOkTrue q)).map Provider.name
              ++ [p.name] := by
  induction pre with
  | nil =>
      intro i errs
      simp [execAux, hm, hh, ho, failMap]
  | cons q rest ih =>
      intro i errs
      have hq := hpre q (by simp)
      have hrest : ∀ r ∈ rest, ¬ succeedsFor method r := fun r hr => hpre r (by simp [hr])
      have hstep := execAux_cons_fail method total q (rest ++ p :: post) i errs hq
      have hih := ih hrest (i + 1) (upsert errs q.name (failReason method q))
      refine ⟨?_, ?_, ?_, ?_⟩
      · rw [List.cons_append, hstep.1, hih.1]
        simp only [failMap, List.length_cons]
        ring_nf
      · rw [List.cons_append, hstep.2.1, hih.2.1]
        simp [failMap]
      · rw [List.cons_append, hstep.2.2.1, hih.2.2.1]
        by_cases hqm : q.hasMethod method <;> simp [hqm]
      · rw [List.cons_append, hstep.2.2.2, hih.2.2.2]
        by_cases hqm : q.hasMethod method && healthOkTrue q <;> simp [hqm]

lemma dictGet_upsert_self {α : Type} (d : List (String × α)) (k : String) (v : α) :
    dictGet (upsert d k v) k = some v := by
  induction d with
  | nil => simp [upsert, dictGet]
  | cons e rest ih =>
      by_cases h : e.1 = k
      · simp [upsert, h, dictGet]
      · simp [upsert, h, dictGet, List.find?_cons, ih]
        simpa [dictGet] using ih

lemma dictGet_upsert_other {α : Type} (d : List (String × α)) (k k₂ : String) (v : α)
    (h : k₂ ≠ k) : dictGet (upsert d k v) k₂ = dictGet d k₂ := by
  induction d with
  | nil => simp [upsert, dictGet, List.find?, Ne.symm h]
  | cons e rest ih =>
      obtain ⟨k₁, v₁⟩ := e
      by_cases he : k₁ = k
      · have hne : k₁ ≠ k₂ := by rw [he]; exact Ne.symm h
        simp [upsert, he, dictGet, List.find?_cons, hne, Ne.symm h]
      · by_cases he₂ : k₁ = k₂
        · simp [upsert, he, he₂, dictGet, List.find?_cons, h]
        · simp [upsert, he, he₂, dictGet, List.find?_cons]
          simpa [dictGet] using ih

lemma failReason_ne_empty (method : String) (q : Provider)
    (hfail : ¬ succeedsFor method q)
    (hhe : ∀ e, q.health = .error e → e ≠ (""))
    (hoe : ∀ e, q.op method = .error e → e ≠ ("")) :
    failReason method q ≠ ("") := by
  unfold failReason
  by_cases hqm : q.hasMethod method
  · rw [if_pos hqm]
    rcases hqh : q.health with e | b
    · exact hhe e hqh
    · cases b
      · show ("Provider health check failed") ≠ ("")
        decide
      · rcases hqo : q.op method with e | w
        · exact hoe e hqo
        · exact absurd ⟨hqm, hqh, w, hqo⟩ hfail
  · rw [if_neg hqm]
    intro hcon
    have h1 := congrArg String.length hcon
    rw [String.length_append, String.length_append] at h1
    have h2 : (("Method ") : String).length = 7 := by decide
    have h3 : ((" not supported") : String).length = 14 := by decide
    have h4 : (("") : String).length = 0 := by decide
    omega

/-- A walk in which every provider fails ends in the aggregate failure
carrying the accumulated error map. -/
lemma execAux_all_fail (method : String) (total : Nat) (ps : List Provider)
    (hall : ∀ q ∈ ps, ¬ succeedsFor method q) :
    ∀ (i : Nat) (errs : List (String × String)),
      (execAux method total ps i errs).result = aggFail method (failMap method errs ps) total
        ∧ (execAux method total ps i errs).errors = failMap method errs ps := by
  induction ps with
  | nil => intro i errs; simp [execAux, failMap]
  | cons q rest ih =>
      intro i errs
      have hq := hall q (by simp)
      have hrest : ∀ r ∈ rest, ¬ succeedsFor method r := fun r hr => hall r (by simp [hr])
      have hstep := execAux_cons_fail method total q rest i errs hq
      have hih := ih hrest (i + 1) (upsert errs q.name (failReason method q))
      exact ⟨by rw [hstep.1, hih.1]; rfl, by rw [hstep.2.1, hih.2]; rfl⟩

/-- C1 fails as stated: in the chain `[provRaisesEmpty, provDictOk]`
the first provider exposes the method and passes its health check, yet
its operation raises (with an empty message), so the result is
attributed to the second provider, not the first, and the recorded
reason is empty. -/
theorem c1_counterexample : ¬ claimC1Attribution := by
  intro h
  have hres := h ("get_stock_quote") [] provRaisesEmpty [provDictOk]
    (by simp) rfl rfl
    [(("provider"), .vStr ("B")), (("fallback_used"), .vBool true),
     (("failed_providers"), .vList [.vStr ("A")])] rfl
  simp [dictGet, List.find?, provRaisesEmpty] at hres

/-- C1 (amended): for every chain containing at least one provider that
exposes the operation, passes its health check, and whose operation
call returns normally, `execute` returns that first such provider's
result annotated in place; when the payload is a dict it carries
`provider` = that provider's name, `fallback_used` = (index > 0), and,
when the index is positive, `failed_providers` = exactly the names of
the providers attempted before it in attempt order; every recorded
reason is non-empty provided the providers' raised messages are
non-empty; health checks and operations run only on the failed prefix
and the succeeding provider. -/
theorem c1_first_success_attribution
    (method : String) (pre : List Provider) (p : Provider) (post : List Provider)
    (v : PyVal)
    (hpre : ∀ q ∈ pre, ¬ succeedsFor method q)
    (hm : p.hasMethod method = true) (hh : p.health = .ok true)
    (ho : p.op method = .ok v)
    (hnodup : (pre.map Provider.name).Nodup)
    (hmsg : ∀ q ∈ pre, (∀ e, q.health = .error e → e ≠ (""))
              ∧ (∀ e, q.op method = .error e → e ≠ (""))) :
    (execute method (pre ++ p :: post)).result
        = annotate v p.name pre.length (pre.map (fun q => (q.name, failReason method q)))
      ∧ (∀ d, v = .vDict d →
          ∃ d₂, (execute method (pre ++ p :: post)).result = .vDict d₂
            ∧ dictGet d₂ ("provider") = some (.vStr p.name)
            ∧ dictGet d₂ ("fallback_used") = some (.vBool (decide (0 < pre.length)))
            ∧ (0 < pre.length →
                dictGet d₂ ("failed_providers")
                  = some (.vList (pre.map (fun q => .vStr q.name)))))
      ∧ (execute method (pre ++ p :: post)).errors
          = pre.map (fun q => (q.name, failReason method q))
      ∧ (∀ e ∈ (execute method (pre ++ p :: post)).errors, e.2 ≠ (""))
      ∧ (execute method (pre ++ p :: post)).healthChecked
          = (pre.filter (fun q => q.hasMethod method)).map Provider.name ++ [p.name]
      ∧ (execute method (pre ++ p :: post)).opsInvoked
          = (pre.filter (fun q => q.hasMethod method && healthOkTrue q)).map Provider.name
              ++ [p.name] := by
  have hkey := execAux_first_success method (pre ++ p :: post).length pre p post v
    hpre hm hh ho 0 []
  have hfm : failMap method [] pre = pre.map (fun q => (q.name, failReason method q)) := by
    have := failMap_eq_append method pre [] (by simp) hnodup
    simpa using this
  have hres : (execute method (pre ++ p :: post)).result
      = annotate v p.name pre.length (pre.map (fun q => (q.name, failReason method q))) := by
    unfold execute
    rw [hkey.1, hfm]
    norm_num
  have herr : (execute method (pre ++ p :: post)).errors
      = pre.map (fun q => (q.name, failReason method q)) := by
    unfold execute
    rw [hkey.2.1, hfm]
  refine ⟨hres, ?_, herr, ?_, ?_, ?_⟩
  · intro d hv
    subst hv
    by_cases hlen : 0 < pre.length
    · refine ⟨_, by rw [hres]; simp only [annotate, if_pos hlen]; rfl, ?_, ?_, ?_⟩
      · rw [dictGet_upsert_other _ _ _ _ (by decide), dictGet_upsert_other _ _ _ _ (by decide)]
        exact dictGet_upsert_self _ _ _
      · rw [dictGet_upsert_other _ _ _ _ (by decide)]
        exact dictGet_upsert_self _ _ _
      · intro _
        rw [dictGet_upsert_self]
        simp [List.map_map, Function.comp]
    · refine ⟨_, by rw [hres]; simp only [annotate, if_neg hlen]; rfl, ?_, ?_, ?_⟩
      · rw [dictGet_upsert_other _ _ _ _ (by decide)]
        exact dictGet_upsert_self _ _ _
      · exact dictGet_upsert_self _ _ _
      · intro hcon; exact absurd hcon hlen
  · intro e he
    rw [herr] at he
    obtain ⟨q, hq, hqe⟩ := List.mem_map.mp he
    have := failReason_ne_empty method q (hpre q hq) (hmsg q hq).1 (hmsg q hq).2
    rw [← hqe]
    exact this
  · unfold execute; rw [hkey.2.2.1]
  · unfold execute; rw [hkey.2.2.2]

/-- C1 amended-claim witness: a concrete two-provider chain (unhealthy
then succeeding) instantiating the theorem. -/
theorem c1_first_success_attribution_witness :
    (execute ("get_stock_quote") ([provUnhealthy] ++ provDictOk :: [])).errors
      = [provUnhealthy].map (fun q => (q.name, failReason ("get_stock_quote") q)) :=
  (c1_first_success_attribution ("get_stock_quote") [provUnhealthy] provDictOk [] (.vDict [])
    (by rintro q hq ⟨-, hcon, -⟩
        rw [List.mem_singleton.mp hq] at hcon
        exact absurd hcon (by simp [provUnhealthy]))
    rfl rfl rfl (by simp)
    (by intro q hq
        rw [List.mem_singleton.mp hq]
        exact ⟨fun e he => absurd he (by simp [provUnhealthy]),
               fun e he => absurd he (by simp [provUnhealthy])⟩)).2.2.1

/-- C10: when the first succeeding provider's operation returns a value
that is not a dict, `execute` hands that value back completely
unchanged — no provider, fallback_used or failed_providers metadata is
attached. -/
theorem c10_nondict_result_unchanged
    (method : String) (pre : List Provider) (p : Provider) (post : List Provider)
    (v : PyVal)
    (hpre : ∀ q ∈ pre, ¬ succeedsFor method q)
    (hm : p.hasMethod method = true) (hh : p.health = .ok true)
    (ho : p.op method = .ok v)
    (hnd : ∀ d, v ≠ .vDict d) :
    (execute method (pre ++ p :: post)).result = v := by
  have hkey := execAux_first_success method (pre ++ p :: post).length pre p post v
    hpre hm hh ho 0 []
  unfold execute
  rw [hkey.1]
  cases v with
  | vDict d => exact absurd rfl (hnd d)
  | vStr s => rfl
  | vBool b => rfl
  | vList l => rfl
  | vInt n => rfl

/-- C10 witness: a chain whose first provider fails health check and
whose second returns the plain integer 7. -/
theorem c10_nondict_result_unchanged_witness :
    (execute ("get_stock_quote") ([provUnhealthy] ++ provIntOk :: [])).result = .vInt 7 :=
  c10_nondict_result_unchanged ("get_stock_quote") [provUnhealthy] provIntOk [] (.vInt 7)
    (by rintro q hq ⟨-, hcon, -⟩
        rw [List.mem_singleton.mp hq] at hcon
        exact absurd hcon (by simp [provUnhealthy]))
    rfl rfl rfl
    (fun d h => PyVal.noConfusion h)

/-- C5: an individual provider's failure (unsupported operation, failed
or raising health check, raising operation) never escapes `execute`:
when every provider fails, the call still returns normally with the
aggregate failure dict carrying the error message, the full
per-provider reason map (one entry per provider, in chain order), and
the total number of providers in the chain. -/
theorem c5_aggregate_failure
    (method : String) (ps : List Provider)
    (hall : ∀ q ∈ ps, ¬ succeedsFor method q)
    (hnodup : (ps.map Provider.name).Nodup) :
    (execute method ps).result
        = aggFail method (ps.map (fun q => (q.name, failReason method q))) ps.length
      ∧ (execute method ps).errors = ps.map (fun q => (q.name, failReason method q))
      ∧ (∃ d, (execute method ps).result = .vDict d
          ∧ dictGet d ("error") = some (.vStr ("All providers in chain failed"))
          ∧ dictGet d ("provider_errors")
              = some (.vDict (ps.map (fun q => (q.name, .vStr (failReason method q)))))
          ∧ dictGet d ("total_providers") = some (.vInt ps.length)) := by
  have hkey := execAux_all_fail method ps.length ps hall 0 []
  have hfm : failMap method [] ps = ps.map (fun q => (q.name, failReason method q)) := by
    have := failMap_eq_append method ps [] (by simp) hnodup
    simpa using this
  have hres : (execute method ps).result
      = aggFail method (ps.map (fun q => (q.name, failReason method q))) ps.length := by
    unfold execute; rw [hkey.1, hfm]
  refine ⟨hres, by unfold execute; rw [hkey.2, hfm], ?_⟩
  refine ⟨_, by rw [hres]; rfl, ?_, ?_, ?_⟩
  · rfl
  · simp [aggFail, dictGet, List.find?, List.map_map, Function.comp]
  · simp [aggFail, dictGet, List.find?]

/-- C5 witness: a two-provider chain in which both providers fail. -/
theorem c5_aggregate_failure_witness :
    (execute ("get_stock_quote") [provUnhealthy, provRaisesEmpty]).errors
      = [provUnhealthy, provRaisesEmpty].map
          (fun q => (q.name, failReason ("get_stock_quote") q)) :=
  (c5_aggregate_failure ("get_stock_quote") [provUnhealthy, provRaisesEmpty]
    (by rintro q hq ⟨-, hcon, hop⟩
        have hq2 : q = provUnhealthy ∨ q = provRaisesEmpty := by simpa using hq
        rcases hq2 with hq2 | hq2 <;> rw [hq2] at hcon hop
        · exact absurd hcon (by simp [provUnhealthy])
        · obtain ⟨w, hw⟩ := hop
          exact absurd hw (by simp [provRaisesEmpty]))
    (by simp [provUnhealthy, provRaisesEmpty])).2.1

/-- C6: when no provider in the chain declares the required capability,
`execute_with_capability_filter` returns the error dict with no health
check and no operation ever invoked; when at least one does, the call
is exactly `execute` over the capable providers, which form the
order-preserving sublist of providers declaring the capability. -/
theorem c6_capability_filter (method cap : String) (ps : List Provider) :
    ((ps.filter (fun p => p.supportsCapability cap)) = [] →
        executeWithCapabilityFilter method cap ps
          = { result := .vDict
                [(("error"), .vStr (("No providers support capability: ") ++ cap)),
                 (("method"), .vStr method),
                 (("available_providers"), .vList (ps.map (fun p => .vStr p.name)))],
              errors := [], healthChecked := [], opsInvoked := [] })
      ∧ ((ps.filter (fun p => p.supportsCapability cap)) ≠ [] →
          executeWithCapabilityFilter method cap ps
            = execute method (ps.filter (fun p => p.supportsCapability cap)))
      ∧ (ps.filter (fun p => p.supportsCapability cap)).Sublist ps
      ∧ (∀ p, p ∈ ps.filter (fun p => p.supportsCapability cap)
            ↔ p ∈ ps ∧ p.supportsCapability cap = true) := by
  refine ⟨?_, ?_, List.filter_sublist _, fun p => List.mem_filter⟩
  · intro hebody
    unfold executeWithCapabilityFilter
    rw [hebody]
    rfl
  · intro hnbody
    unfold executeWithCapabilityFilter
    rw [if_neg (by simpa [List.isEmpty_iff] using hnbody)]

/-- C6 witness: a chain whose single provider declares no capability at
all, filtered on the options-chain capability. -/
theorem c6_capability_filter_witness :
    executeWithCapabilityFilter ("get_options_chain") ("options_chain") [provDictOk]
      = { result := .vDict
            [(("error"), .vStr (("No providers support capability: ") ++ ("options_chain"))),
             (("method"), .vStr ("get_options_chain")),
             (("available_providers"), .vList [.vStr ("B")])],
          errors := [], healthChecked := [], opsInvoked := [] } :=
  (c6_capability_filter ("get_options_chain") ("options_chain") [provDictOk]).1 rfl

end ProviderChain

namespace ProviderFactory

/-- C9 fails as stated: re-registering an already-registered name does
not raise; the call succeeds and silently replaces the prior class. -/
theorem c9_counterexample : ¬ claimC9DuplicateRejected := by
  intro h
  obtain ⟨e, he⟩ := h ⟨[(("test"), ⟨true, 0⟩)]⟩ ("test") ⟨true, 1⟩ ⟨true, 0⟩ rfl
  exact Except.noConfusion he

/-- C9 (amended): registering any BaseProvider subclass under a name —
already registered or not — succeeds without error and silently makes
that class the one registered under the name; there is no replace flag
and no duplicate check. -/
theorem c9_register_replaces (st : FactoryState) (nm : String) (cls : ProviderClass)
    (hsub : cls.isSubclassOfBaseProvider = true) :
    registerProvider st nm cls = .ok ⟨upsert st.providers nm cls⟩
      ∧ ∀ st₂, registerProvider st nm cls = .ok st₂ →
          dictGet st₂.providers nm = some cls := by
  have hstep : registerProvider st nm cls = .ok ⟨upsert st.providers nm cls⟩ := by
    simp [registerProvider, hsub]
  refine ⟨hstep, fun st₂ h₂ => ?_⟩
  rw [hstep] at h₂
  have h₃ := Except.ok.inj h₂
  rw [← h₃]
  exact ProviderChain.dictGet_upsert_self _ _ _

/-- C9 amended-claim witness: re-registering the name "test" replaces
the stored class with the new one and does not raise. -/
theorem c9_register_replaces_witness :
    registerProvider ⟨[(("test"), ⟨true, 0⟩)]⟩ ("test") ⟨true, 1⟩
      = .ok ⟨[(("test"), ⟨true, 1⟩)]⟩ :=
  (c9_register_replaces ⟨[(("test"), ⟨true, 0⟩)]⟩ ("test") ⟨true, 1⟩ rfl).1

end ProviderFactory

namespace Optimizer

lemma rsiTrend_cons (a b c : ℚ) (rest : List ℚ) :
    rsiTrend (a :: b :: c :: rest)
      = if b < a ∧ c < b then ("RISING")
        else if a < b ∧ b < c then ("FALLING")
        else ("SIDEWAYS") := by
  unfold rsiTrend
  rw [if_pos (by simp [List.length_cons])]
  simp only [List.take_succ_cons, List.take_zero, strictDescB, strictAscB]
  by_cases hba : b < a <;> by_cases hcb : c < b <;>
    by_cases hab : a < b <;> by_cases hbc : b < c <;>
    simp [hba, hcb, hab, hbc]

/-- C8: RSI curation classifies the most recent value as OVERBOUGHT iff
it is at least 70, OVERSOLD iff at most 30, BULLISH iff strictly
between 50 and 70, else BEARISH; the 3-point trend over the
newest-first values `a, b, c` is RISING exactly when they strictly
decrease, FALLING exactly when they strictly increase, else SIDEWAYS;
and the chronological series [55, 68, 72] yields OVERBOUGHT and
RISING. -/
theorem c8_rsi_classification :
    (∀ v : ℚ, rsiSignal v = ("OVERBOUGHT") ↔ 70 ≤ v)
  ∧ (∀ v : ℚ, rsiSignal v = ("OVERSOLD") ↔ v ≤ 30)
  ∧ (∀ v : ℚ, rsiSignal v = ("BULLISH") ↔ (50 < v ∧ v < 70))
  ∧ (∀ v : ℚ, rsiSignal v = ("BEARISH") ↔ (30 < v ∧ v ≤ 50))
  ∧ (∀ (a b c : ℚ) (rest : List ℚ),
        (rsiTrend (a :: b :: c :: rest) = ("RISING") ↔ (b < a ∧ c < b))
      ∧ (rsiTrend (a :: b :: c :: rest) = ("FALLING") ↔ (a < b ∧ b < c))
      ∧ (rsiTrend (a :: b :: c :: rest) = ("SIDEWAYS")
          ↔ (¬ (b < a ∧ c < b) ∧ ¬ (a < b ∧ b < c))))
  ∧ optimizeRsiData [(20240101, 55), (20240102, 68), (20240103, 72)]
      = some { latestRsi := 72, signal := ("OVERBOUGHT"),
               trendDirection := ("RISING"),
               recentValues := [(20240103, 72), (20240102, 68), (20240101, 55)] } := by
  refine ⟨?_, ?_, ?_, ?_, ?_, by decide⟩
  · intro v
    unfold rsiSignal
    split_ifs with h1 h2 h3
    · exact ⟨fun _ => h1, fun _ => rfl⟩
    · exact ⟨fun hcon => absurd hcon (by decide), fun hv => absurd hv h1⟩
    · exact ⟨fun hcon => absurd hcon (by decide), fun hv => absurd hv h1⟩
    · exact ⟨fun hcon => absurd hcon (by decide), fun hv => absurd hv h1⟩
  · intro v
    unfold rsiSignal
    split_ifs with h1 h2 h3
    · exact ⟨fun hcon => absurd hcon (by decide), fun hv => absurd h1 (by linarith)⟩
    · exact ⟨fun _ => h2, fun _ => rfl⟩
    · exact ⟨fun hcon => absurd hcon (by decide), fun hv => absurd hv h2⟩
    · exact ⟨fun hcon => absurd hcon (by decide), fun hv => absurd hv h2⟩
  · intro v
    unfold rsiSignal
    split_ifs with h1 h2 h3
    · exact ⟨fun hcon => absurd hcon (by decide), fun hv => absurd h1 (by linarith [hv.2])⟩
    · exact ⟨fun hcon => absurd hcon (by decide), fun hv => absurd h2 (by linarith [hv.1])⟩
    · exact ⟨fun _ => ⟨h3, not_le.mp h1⟩, fun _ => rfl⟩
    · exact ⟨fun hcon => absurd hcon (by decide), fun hv => absurd hv.1 h3⟩
  · intro v
    unfold rsiSignal
    split_ifs with h1 h2 h3
    · exact ⟨fun hcon => absurd hcon (by decide), fun hv => absurd h1 (by linarith [hv.2])⟩
    · exact ⟨fun hcon => absurd hcon (by decide), fun hv => absurd hv.1 (not_lt.mpr h2)⟩
    · exact ⟨fun hcon => absurd hcon (by decide), fun hv => absurd hv.2 (not_le.mpr h3)⟩
    · exact ⟨fun _ => ⟨not_le.mp h2, not_lt.mp h3⟩, fun _ => rfl⟩
  · intro a b c rest
    rw [rsiTrend_cons]
    refine ⟨?_, ?_, ?_⟩
    · by_cases h1 : b < a ∧ c < b
      · rw [if_pos h1]
        exact ⟨fun _ => h1, fun _ => rfl⟩
      · rw [if_neg h1]
        by_cases h2 : a < b ∧ b < c
        · rw [if_pos h2]
          exact ⟨fun hcon => absurd hcon (by decide), fun hcon => absurd hcon h1⟩
        · rw [if_neg h2]
          exact ⟨fun hcon => absurd hcon (by decide), fun hcon => absurd hcon h1⟩
    · by_cases h1 : b < a ∧ c < b
      · rw [if_pos h1]
        exact ⟨fun hcon => absurd hcon (by decide),
               fun hcon => absurd hcon.1 (by linarith [h1.1])⟩
      · rw [if_neg h1]
        by_cases h2 : a < b ∧ b < c
        · rw [if_pos h2]
          exact ⟨fun _ => h2, fun _ => rfl⟩
        · rw [if_neg h2]
          exact ⟨fun hcon => absurd hcon (by decide), fun hcon => absurd hcon h2⟩
    · by_cases h1 : b < a ∧ c < b
      · rw [if_pos h1]
        exact ⟨fun hcon => absurd hcon (by decide), fun hcon => absurd h1 hcon.1⟩
      · rw [if_neg h1]
        by_cases h2 : a < b ∧ b < c
        · rw [if_pos h2]
          exact ⟨fun hcon => absurd hcon (by decide), fun hcon => absurd h2 hcon.2⟩
        · rw [if_neg h2]
          exact ⟨fun _ => ⟨h1, h2⟩, fun _ => rfl⟩

/-- One `stepContract` application keeps every recorded expiration's
sides capped at 20. -/
lemma stepContract_sides (price : ℚ) (acc : List (String × ExpEntry) × Nat)
    (c : ExpirationContracts)
    (hacc : ∀ e ∈ acc.1, e.2.calls.length ≤ 20 ∧ e.2.puts.length ≤ 20) :
    ∀ e ∈ (stepContract price acc c).1,
      e.2.calls.length ≤ 20 ∧ e.2.puts.length ≤ 20 := by
  intro e he
  unfold stepContract at he
  rcases hd : c.expirationDate with _ | d
  · rw [hd] at he
    exact hacc e he
  · simp only [hd] at he
    by_cases hde : d = ("")
    · rw [if_pos hde] at he
      exact hacc e he
    · rw [if_neg hde] at he
      by_cases hv : 50 <
          ((((c.calls.filter (keepContract price)).map (projectContract price))
              ++ ((c.puts.filter (keepContract price)).map (projectContract price))).map
            (fun x => x.volume)).sum
      · rw [if_pos hv] at he
        rcases mem_upsert _ _ _ e he with h | h
        · exact hacc e h
        · rw [h]
          exact ⟨List.length_take_le _ _, List.length_take_le _ _⟩
      · rw [if_neg hv] at he
        exact hacc e he

lemma foldl_stepContract_sides (price : ℚ) (cs : List ExpirationContracts) :
    ∀ (acc : List (String × ExpEntry) × Nat),
      (∀ e ∈ acc.1, e.2.calls.length ≤ 20 ∧ e.2.puts.length ≤ 20) →
      ∀ e ∈ (cs.foldl (stepContract price) acc).1,
        e.2.calls.length ≤ 20 ∧ e.2.puts.length ≤ 20 := by
  induction cs with
  | nil => intro acc hacc; simpa using hacc
  | cons c rest ih =>
      intro acc hacc
      rw [List.foldl_cons]
      exact ih (stepContract price acc c) (stepContract_sides price acc c hacc)

lemma sideCounts_optimized_mem (p : Option String) (exps : List (String × ExpEntry))
    (s : OptSummary) :
    ∀ n ∈ sideCounts (.optimized p exps s),
      ∃ e ∈ exps, n = e.2.calls.length ∨ n = e.2.puts.length := by
  induction exps with
  | nil => intro n hn; simp [sideCounts] at hn
  | cons e rest ih =>
      intro n hn
      simp only [sideCounts, List.foldr_cons, List.mem_cons] at hn
      rcases hn with hn | hn | hn
      · exact ⟨e, List.mem_cons_self _ _, Or.inl hn⟩
      · exact ⟨e, List.mem_cons_self _ _, Or.inr hn⟩
      · obtain ⟨f, hf, hcase⟩ := ih n hn
        exact ⟨f, List.mem_cons_of_mem _ hf, hcase⟩

/-- C7 fails as stated: a payload whose lastTradePrice is 0 (falsy) is
returned unchanged by the guard, so its 21-call expiration side passes
through uncapped. -/
theorem c7_counterexample : ¬ claimC7Cap := by
  intro h
  exact absurd (h c7BadInput 10 21 (by decide)) (by decide)

/-- C7 (amended): for every input that actually reaches the curation
path — a present "data" key, a non-empty contract list and a non-zero
lastTradePrice (otherwise the raw payload is returned unchanged) — the
curated result holds at most 20 contracts per side per expiration,
regardless of input size. -/
theorem c7_per_side_cap (rd : RawOptionsData) (maxExpirations : Nat)
    (hd : rd.hasData = true) (hne : rd.data.isEmpty = false)
    (hp : rd.lastTradePrice ≠ 0) :
    ∀ n ∈ sideCounts (optimizeOptionsData rd maxExpirations), n ≤ 20 := by
  intro n hn
  simp only [optimizeOptionsData, hd, hne, hp, Bool.not_eq_true, if_false,
    Bool.false_eq_true, if_true, not_true, ite_false, ite_true] at hn
  obtain ⟨e, he, hcase⟩ := sideCounts_optimized_mem _ _ _ n hn
  have he₂ := List.take_subset _ _ he
  have he₃ : e ∈ (rd.data.foldl (stepContract rd.lastTradePrice) ([], 0)).1 :=
    (List.perm_insertionSort _ _).mem_iff.mp he₂
  have hb := foldl_stepContract_sides rd.lastTradePrice rd.data ([], 0) (by simp) e he₃
  rcases hcase with h | h <;> rw [h]
  · exact hb.1
  · exact hb.2

unseal Rat.add Rat.sub Rat.mul Rat.inv in
/-- C7 amended-claim witness: the single-call input on the curation
path. -/
theorem c7_per_side_cap_witness : (1 : Nat) ≤ 20 :=
  c7_per_side_cap c7GoodInput 10 rfl rfl (by decide) 1 (by decide)

end Optimizer

namespace RobinhoodOptions

unseal Rat.add Rat.sub Rat.mul Rat.inv in
/-- C4 fails as stated: with the example strikes all actively traded,
only [110, 120, 130] pass the primary filter, which is fewer than 5,
so the ±25% re-add loop brings strikes 100 and 140 back into the
result — they are not excluded. -/
theorem c4_counterexample : ¬ claimC4BandExclusion := by
  intro h
  have h2 := h ("call") (exOption 100) (by decide)
  exact absurd h2.1 (by decide)

unseal Rat.add Rat.sub Rat.mul Rat.inv in
/-- C4 (amended): a contract passes the primary curation filter iff
its strike is within 15% of the underlying price around the ATM strike
and it meets the liquidity bar `volume > 0 OR openInterest > 10 OR
(bid and ask both present AND bid > 0)` — the ask's sign is not
checked; however, when fewer than 5 contracts pass, contracts within
25% of the ATM strike are re-added (up to 10) before the final
nearest-to-ATM cap of 8, so in the ±15%-band example with strikes
[100,110,120,130,140], price 120 and every contract liquid, the
result keeps all five strikes, ordered by distance from the ATM
strike 120.  Kernel evaluation of the example needs the rational
arithmetic operations unsealed. -/
theorem c4_professional_filter (opts : List RHOption) (price atm : ℚ) (t : String) :
    (∀ o, o ∈ primaryFilter opts price atm t
        ↔ o ∈ opts ∧ |o.strike - atm| ≤ price * (15 / 100) ∧ isLiquid o = true)
  ∧ (∀ o : RHOption, isLiquid o = true
        ↔ (0 < o.volume ∨ 10 < o.openInterest
            ∨ ∃ b, o.bid = some b ∧ 0 < b ∧ o.ask.isSome = true))
  ∧ (filterProfessionalOptions c4Example 120 ("call")).map (fun o => o.strike)
      = [120, 110, 130, 100, 140] := by
  refine ⟨?_, ?_, by decide⟩
  · intro o
    by_cases ht : t = ("call") <;>
      simp [primaryFilter, List.mem_filter, ht, and_assoc]
  · intro o
    rcases hb : o.bid with _ | b <;> rcases ha : o.ask with _ | a <;>
      simp [isLiquid, hb, ha, or_assoc]

end RobinhoodOptions

namespace RateLimiter

lemma foldl_max_ge_init (l : List ℚ) (a : ℚ) : a ≤ l.foldl max a := by
  induction l generalizing a with
  | nil => simp
  | cons x xs ih =>
      rw [List.foldl_cons]
      exact le_trans (le_max_left a x) (ih (max a x))

lemma foldl_max_mem_le (l : List ℚ) (a : ℚ) : ∀ x ∈ l, x ≤ l.foldl max a := by
  induction l generalizing a with
  | nil => simp
  | cons y xs ih =>
      intro x hx
      rw [List.foldl_cons]
      rcases List.mem_cons.mp hx with h | h
      · rw [h]
        exact le_trans (le_max_right a y) (foldl_max_ge_init xs (max a y))
      · exact ih (max a y) x h

lemma foldl_max_lt (l : List ℚ) (a c : ℚ) (ha : a < c) (hl : ∀ x ∈ l, x < c) :
    l.foldl max a < c := by
  induction l generalizing a with
  | nil => simpa
  | cons x xs ih =>
      rw [List.foldl_cons]
      exact ih (max a x) (max_lt ha (hl x (by simp))) (fun y hy => hl y (by simp [hy]))

lemma dropWhile_head_ge (c : ℚ) (l : List ℚ) :
    ∀ h rest, l.dropWhile (fun ts => decide (ts < c)) = h :: rest → c ≤ h := by
  induction l with
  | nil => intro h rest hcon; simp [List.dropWhile] at hcon
  | cons a xs ih =>
      intro h rest heq
      by_cases hac : a < c
      · rw [List.dropWhile_cons, if_pos (by simpa using hac)] at heq
        exact ih h rest heq
      · rw [List.dropWhile_cons, if_neg (by simpa using hac)] at heq
        obtain ⟨h1, -⟩ := List.cons.inj heq
        rw [← h1]
        exact le_of_not_lt hac

lemma countInWindow_append (s₁ s₂ : List ℚ) (w t : ℚ) :
    countInWindow (s₁ ++ s₂) w t = countInWindow s₁ w t + countInWindow s₂ w t := by
  simp [countInWindow, List.filter_append]

lemma countInWindow_le_length (s : List ℚ) (w t : ℚ) : countInWindow s w t ≤ s.length :=
  List.length_filter_le _ _

lemma countInWindow_mono (s₁ s₂ : List ℚ) (w t : ℚ) (h : s₁.Sublist s₂) :
    countInWindow s₁ w t ≤ countInWindow s₂ w t :=
  List.Sublist.length_le (h.filter _)

lemma getWaitTime_minute_le (cfg : RateLimitConfig) (stc : LimiterState) (now : ℚ)
    (hc : (truthy cfg.requestsPerMinute
        && decide (cfg.requestsPerMinute.getD 0 ≤ stc.minuteRequests.length)) = true) :
    stc.minuteRequests.headD 0 + 60 - now ≤ getWaitTime cfg stc now := by
  unfold getWaitTime
  rw [if_pos hc]
  by_cases hd : (truthy cfg.requestsPerDay
      && decide (cfg.requestsPerDay.getD 0 ≤ stc.dailyRequests.length)) = true
  · rw [if_pos hd]
    dsimp only [List.cons_append, List.nil_append, List.foldl_cons, List.foldl_nil]
    exact le_max_left _ _
  · rw [if_neg hd]
    dsimp only [List.append_nil, List.foldl_nil]
    exact le_refl _

lemma getWaitTime_nonneg (cfg : RateLimitConfig) (stc : LimiterState) (now : ℚ)
    (hmh : ∀ h rest, stc.minuteRequests = h :: rest → now - 60 ≤ h)
    (hdh : truthy cfg.requestsPerDay = true →
      ∀ h rest, stc.dailyRequests = h :: rest → now - 86400 ≤ h) :
    0 ≤ getWaitTime cfg stc now := by
  unfold getWaitTime
  by_cases hc : (truthy cfg.requestsPerMinute
      && decide (cfg.requestsPerMinute.getD 0 ≤ stc.minuteRequests.length)) = true
  · rw [if_pos hc]
    have hne : stc.minuteRequests ≠ [] := by
      intro hnil
      rw [Bool.and_eq_true] at hc
      rw [hnil] at hc
      simp [truthy] at hc
    obtain ⟨h, rest, hS⟩ : ∃ h rest, stc.minuteRequests = h :: rest := by
      cases hS : stc.minuteRequests with
      | nil => exact absurd hS hne
      | cons h rest => exact ⟨h, rest, rfl⟩
    have hmw : 0 ≤ stc.minuteRequests.headD 0 + 60 - now := by
      rw [hS]
      have := hmh h rest hS
      simp only [List.headD_cons]
      linarith
    by_cases hd : (truthy cfg.requestsPerDay
        && decide (cfg.requestsPerDay.getD 0 ≤ stc.dailyRequests.length)) = true
    · rw [if_pos hd]
      dsimp only [List.cons_append, List.nil_append, List.foldl_cons, List.foldl_nil]
      exact le_trans hmw (le_max_left _ _)
    · rw [if_neg hd]
      dsimp only [List.append_nil, List.foldl_nil]
      exact hmw
  · rw [if_neg hc]
    by_cases hd : (truthy cfg.requestsPerDay
        && decide (cfg.requestsPerDay.getD 0 ≤ stc.dailyRequests.length)) = true
    · rw [if_pos hd]
      have hne : stc.dailyRequests ≠ [] := by
        intro hnil
        rw [Bool.and_eq_true] at hd
        rw [hnil] at hd
        simp [truthy] at hd
      obtain ⟨h, rest, hS⟩ : ∃ h rest, stc.dailyRequests = h :: rest := by
        cases hS : stc.dailyRequests with
        | nil => exact absurd hS hne
        | cons h rest => exact ⟨h, rest, rfl⟩
      dsimp only [List.nil_append, List.foldl_nil]
      rw [hS]
      have := hdh (Bool.and_eq_true _ _ |>.mp hd).1 h rest hS
      simp only [List.headD_cons]
      linarith
    · rw [if_neg hd]
      dsimp only [List.append_nil]
      exact le_refl _

/-- One `acquire` call preserves strict sortedness of the minute window
and the per-window count bound, provided the call time is later than
every recorded timestamp. -/
lemma acquire_minute_step (cfg : RateLimitConfig) (m : Nat)
    (hm : cfg.requestsPerMinute = some m) (hm0 : 0 < m)
    (st : LimiterState) (now : ℚ) (o : Option ℚ)
    (hlt : ∀ x ∈ st.minuteRequests, x < now)
    (hsort : st.minuteRequests.Pairwise (· < ·))
    (hinv : ∀ t : ℚ, countInWindow st.minuteRequests 60 t ≤ m) :
    (acquire cfg st now o).state.minuteRequests.Pairwise (· < ·)
      ∧ ∀ t : ℚ, countInWindow (acquire cfg st now o).state.minuteRequests 60 t ≤ m := by
  have htru : truthy cfg.requestsPerMinute = true := by
    simp only [truthy, hm, Option.getD_some, ne_eq, decide_eq_true_eq]
    omega
  have hgd : cfg.requestsPerMinute.getD 0 = m := by rw [hm]; rfl
  have hclean : (cleanupOldRequests cfg st now).minuteRequests
      = st.minuteRequests.dropWhile (fun ts => decide (ts < now - 60)) := by
    simp [cleanupOldRequests, htru]
  have hsub : (cleanupOldRequests cfg st now).minuteRequests.Sublist st.minuteRequests := by
    rw [hclean]
    exact List.dropWhile_sublist _
  have hsort₁ : (cleanupOldRequests cfg st now).minuteRequests.Pairwise (· < ·) :=
    hsort.sublist hsub
  have hlt₁ : ∀ x ∈ (cleanupOldRequests cfg st now).minuteRequests, x < now :=
    fun x hx => hlt x (hsub.subset hx)
  have hcnt₁ : ∀ t, countInWindow (cleanupOldRequests cfg st now).minuteRequests 60 t ≤ m :=
    fun t => le_trans (countInWindow_mono _ _ _ _ hsub) (hinv t)
  have hhead₁ : ∀ h rest,
      (cleanupOldRequests cfg st now).minuteRequests = h :: rest → now - 60 ≤ h := by
    intro h rest heq
    rw [hclean] at heq
    exact dropWhile_head_ge (now - 60) st.minuteRequests h rest heq
  unfold acquire
  by_cases hcan : canMakeRequest cfg (cleanupOldRequests cfg st now) = true
  · rw [if_pos hcan]
    have happ : (appendTimestamps cfg (cleanupOldRequests cfg st now) now).minuteRequests
        = (cleanupOldRequests cfg st now).minuteRequests ++ [now] := by
      simp [appendTimestamps, htru]
    have hlen : (cleanupOldRequests cfg st now).minuteRequests.length < m := by
      unfold canMakeRequest at hcan
      rw [Bool.and_eq_true] at hcan
      have h1 := hcan.1
      rw [if_pos htru, hgd] at h1
      exact of_decide_eq_true h1
    constructor
    · rw [happ, List.pairwise_append]
      refine ⟨hsort₁, List.pairwise_singleton _ _, fun x hx y hy => ?_⟩
      rw [List.mem_singleton.mp hy]
      exact hlt₁ x hx
    · intro t
      rw [happ, countInWindow_append]
      have h0 := countInWindow_le_length (cleanupOldRequests cfg st now).minuteRequests 60 t
      have h2 := countInWindow_le_length [now] 60 t
      simp only [List.length_singleton] at h2
      omega
  · rw [if_neg hcan]
    by_cases hdeny : (decide (o.getD 0 ≠ 0)
        && decide (o.getD 0 < getWaitTime cfg (cleanupOldRequests cfg st now) now)) = true
    · rw [if_pos hdeny]
      exact ⟨hsort₁, hcnt₁⟩
    · rw [if_neg hdeny]
      have hw0 : 0 ≤ getWaitTime cfg (cleanupOldRequests cfg st now) now := by
        apply getWaitTime_nonneg cfg (cleanupOldRequests cfg st now) now hhead₁
        intro htd h rest heq
        have hcd : (cleanupOldRequests cfg st now).dailyRequests
            = st.dailyRequests.dropWhile (fun ts => decide (ts < now - 86400)) := by
          simp [cleanupOldRequests, htd]
        rw [hcd] at heq
        exact dropWhile_head_ge (now - 86400) st.dailyRequests h rest heq
      set w := getWaitTime cfg (cleanupOldRequests cfg st now) now with hwdef
      have happ : (appendTimestamps cfg (cleanupOldRequests cfg st now) (now + w)).minuteRequests
          = (cleanupOldRequests cfg st now).minuteRequests ++ [now + w] := by
        simp [appendTimestamps, htru]
      constructor
      · rw [happ, List.pairwise_append]
        refine ⟨hsort₁, List.pairwise_singleton _ _, fun x hx y hy => ?_⟩
        rw [List.mem_singleton.mp hy]
        exact lt_of_lt_of_le (hlt₁ x hx) (by linarith)
      · intro t
        rw [happ, countInWindow_append]
        by_cases hfull : m ≤ (cleanupOldRequests cfg st now).minuteRequests.length
        · obtain ⟨h, tail, hcons⟩ : ∃ h tail,
              (cleanupOldRequests cfg st now).minuteRequests = h :: tail := by
            cases hS : (cleanupOldRequests cfg st now).minuteRequests with
            | nil => rw [hS] at hfull; simp at hfull; omega
            | cons h tail => exact ⟨h, tail, rfl⟩
          have hh : now - 60 ≤ h := hhead₁ h tail hcons
          have hwm : h + 60 - now ≤ w := by
            have hcond : (truthy cfg.requestsPerMinute
                && decide (cfg.requestsPerMinute.getD 0
                    ≤ (cleanupOldRequests cfg st now).minuteRequests.length)) = true := by
              rw [htru, hgd, Bool.true_and, decide_eq_true_eq]
              exact hfull
            have := getWaitTime_minute_le cfg (cleanupOldRequests cfg st now) now hcond
            rw [hcons] at this
            simpa using this
          have hlenle : (cleanupOldRequests cfg st now).minuteRequests.length ≤ m := by
            set u := tail.foldl max h with hudef
            have hule : ∀ x ∈ (cleanupOldRequests cfg st now).minuteRequests, x ≤ u := by
              intro x hx
              rw [hcons] at hx
              rcases List.mem_cons.mp hx with h₂ | h₂
              · rw [h₂]
                exact foldl_max_ge_init tail h
              · exact foldl_max_mem_le tail h x h₂
            have huin : u < now := by
              apply foldl_max_lt
              · exact hlt₁ h (by rw [hcons]; simp)
              · intro x hx
                exact hlt₁ x (by rw [hcons]; simp [hx])
            have hwin : ∀ x ∈ (cleanupOldRequests cfg st now).minuteRequests,
                (decide (u - 60 < x) && decide (x ≤ u)) = true := by
              intro x hx
              have hge : h ≤ x := by
                rw [hcons] at hx
                rcases List.mem_cons.mp hx with h₂ | h₂
                · rw [h₂]
                · exact le_of_lt ((List.pairwise_cons.mp (hcons ▸ hsort₁)).1 x h₂)
              simp only [Bool.and_eq_true, decide_eq_true_eq]
              exact ⟨by linarith, hule x hx⟩
            have heq : countInWindow (cleanupOldRequests cfg st now).minuteRequests 60 u
                = (cleanupOldRequests cfg st now).minuteRequests.length := by
              unfold countInWindow
              rw [List.filter_eq_self.mpr hwin]
            calc (cleanupOldRequests cfg st now).minuteRequests.length
                = countInWindow (cleanupOldRequests cfg st now).minuteRequests 60 u :=
                  heq.symm
              _ ≤ m := hcnt₁ u
          have hlen_eq : (cleanupOldRequests cfg st now).minuteRequests.length = m :=
            le_antisymm hlenle hfull
          by_cases hin : (decide (t - 60 < now + w) && decide (now + w ≤ t)) = true
          · have hin₂ := hin
            simp only [Bool.and_eq_true, decide_eq_true_eq] at hin₂
            have htt : h ≤ t - 60 := by linarith [hin₂.2]
            have hcS : countInWindow (cleanupOldRequests cfg st now).minuteRequests 60 t
                ≤ m - 1 := by
              rw [hcons]
              unfold countInWindow
              rw [List.filter_cons_of_neg (by
                simp only [Bool.and_eq_true, decide_eq_true_eq, not_and]
                intro hcon
                exact absurd htt (not_le.mpr hcon))]
              have hfl := List.length_filter_le
                (fun ts => decide (t - 60 < ts) && decide (ts ≤ t)) tail
              have htl : tail.length = m - 1 := by
                rw [hcons] at hlen_eq
                simp only [List.length_cons] at hlen_eq
                omega
              omega
            have hone := countInWindow_le_length [now + w] 60 t
            simp only [List.length_singleton] at hone
            omega
          · have hzero : countInWindow [now + w] 60 t = 0 := by
              unfold countInWindow
              simp only [List.filter, Bool.not_eq_true] at hin ⊢
              rw [hin]
              rfl
            rw [hzero]
            simpa using hcnt₁ t
        · push_neg at hfull
          have h1 := le_trans (countInWindow_le_length _ 60 t) (Nat.le_of_lt_succ
            (Nat.lt_succ_of_lt hfull))
          have h2 := countInWindow_le_length [now + w] 60 t
          simp only [List.length_singleton] at h2
          have h3 := countInWindow_le_length
            (cleanupOldRequests cfg st now).minuteRequests 60 t
          omega

lemma runAcquires_minute_inv (cfg : RateLimitConfig) (m : Nat)
    (hm : cfg.requestsPerMinute = some m) (hm0 : 0 < m) :
    ∀ (es : List (ℚ × Option ℚ)) (st : LimiterState),
      st.minuteRequests.Pairwise (· < ·) →
      (∀ t, countInWindow st.minuteRequests 60 t ≤ m) →
      chronOK cfg st es = true →
      ∀ t, countInWindow (runAcquires cfg st es).minuteRequests 60 t ≤ m := by
  intro es
  induction es with
  | nil => intro st _ hinv _ t; exact hinv t
  | cons e rest ih =>
      obtain ⟨τ, o⟩ := e
      intro st hsort hinv hok t
      unfold chronOK at hok
      rw [Bool.and_eq_true, Bool.and_eq_true] at hok
      obtain ⟨⟨ha, -⟩, hc⟩ := hok
      have hlt : ∀ x ∈ st.minuteRequests, x < τ := by
        intro x hx
        exact of_decide_eq_true (List.all_eq_true.mp ha x hx)
      have hstep := acquire_minute_step cfg m hm hm0 st τ o hlt hsort hinv
      unfold runAcquires
      exact ih (acquire cfg st τ o).state hstep.1 hstep.2 hc t

lemma acquire_shape (cfg : RateLimitConfig) (st : LimiterState) (now : ℚ)
    (o : Option ℚ) :
    (acquire cfg st now o).state.minuteRequests
      = (cleanupOldRequests cfg st now).minuteRequests
          ++ (if (acquire cfg st now o).granted = true
              then (if truthy cfg.requestsPerMinute = true
                    then [(acquire cfg st now o).effectiveTime] else [])
              else []) := by
  unfold acquire
  by_cases hcan : canMakeRequest cfg (cleanupOldRequests cfg st now) = true
  · rw [if_pos hcan]
    by_cases htru : truthy cfg.requestsPerMinute = true <;>
      simp [appendTimestamps, htru]
  · rw [if_neg hcan]
    by_cases hdeny : (decide (o.getD 0 ≠ 0)
        && decide (o.getD 0 < getWaitTime cfg (cleanupOldRequests cfg st now) now)) = true
    · rw [if_pos hdeny]
      simp
    · rw [if_neg hdeny]
      by_cases htru : truthy cfg.requestsPerMinute = true <;>
        simp [appendTimestamps, htru]

/-- C2: for any sequence of acquire calls against a source configured
with a per-minute cap, observed at strictly advancing wall-clock times
(the lock serializes calls), the number of recorded minute timestamps
lying within any trailing 60-second window never exceeds the cap; and
each call's minute window is exactly its lazily-pruned previous window
(entries removed only by aging past 60 s) plus the admitted timestamp
when and only when the call is granted. -/
theorem c2_minute_window_invariant (cfg : RateLimitConfig) (m : Nat)
    (hm : cfg.requestsPerMinute = some m) (hm0 : 0 < m)
    (es : List (ℚ × Option ℚ)) (hok : chronOK cfg ⟨[], []⟩ es = true) :
    (∀ t : ℚ, countInWindow (runAcquires cfg ⟨[], []⟩ es).minuteRequests 60 t ≤ m)
      ∧ ∀ (st : LimiterState) (now : ℚ) (o : Option ℚ),
          (acquire cfg st now o).state.minuteRequests
            = (cleanupOldRequests cfg st now).minuteRequests
                ++ (if (acquire cfg st now o).granted = true
                    then [(acquire cfg st now o).effectiveTime] else []) := by
  have htru : truthy cfg.requestsPerMinute = true := by
    simp only [truthy, hm, Option.getD_some, ne_eq, decide_eq_true_eq]
    omega
  constructor
  · exact fun t => runAcquires_minute_inv cfg m hm hm0 es ⟨[], []⟩ (by simp)
      (fun s => by simp [countInWindow]) hok t
  · intro st now o
    rw [acquire_shape cfg st now o, htru]
    simp

unseal Rat.add Rat.sub Rat.mul Rat.inv in
/-- C2 witness: a cap-2 limiter driven by three chronological calls. -/
theorem c2_minute_window_invariant_witness :
    countInWindow (runAcquires ⟨some 2, none⟩ ⟨[], []⟩
        [(0, some 30), (1, some 30), (61, some 30)]).minuteRequests 60 61 ≤ 2 :=
  (c2_minute_window_invariant ⟨some 2, none⟩ 2 rfl (by decide)
    [(0, some 30), (1, some 30), (61, some 30)] (by decide)).1 61

unseal Rat.add Rat.sub Rat.mul Rat.inv in
/-- C3: at the failing input — a capacity-1 minute window holding the
timestamp 0, a call at time 30 with caller-supplied timeout 0 — the
computed wait is 30 (the time until the oldest blocking entry ages out
of the full window), which exceeds the timeout 0, so the claim (and the
function's own docstring, "False if timeout exceeded") requires a
denial without blocking or appending; but the falsy-zero guard
`if timeout and wait_time > timeout` skips the denial: the call sleeps
30 s, appends the timestamp at time 60 and returns granted.  By
contrast, the truthy timeout 20 on the same state is denied without
appending, as the claim describes. -/
theorem c3_zero_timeout_not_denied :
    getWaitTime c3cfg (cleanupOldRequests c3cfg c3st 30) 30 = 30
  ∧ ((0 : ℚ) < 30)
  ∧ (acquire c3cfg c3st 30 (some 0)).granted = true
  ∧ (acquire c3cfg c3st 30 (some 0)).state.minuteRequests = [0, 60]
  ∧ (acquire c3cfg c3st 30 (some 0)).effectiveTime = 60
  ∧ (acquire c3cfg c3st 30 (some 20)).granted = false
  ∧ (acquire c3cfg c3st 30 (some 20)).state.minuteRequests = [0] := by decide

end RateLimiter

end MarketData
